import Mathlib

/-!
Verification of the pairrot solver (a solver for a two-syllable Korean
word-guessing puzzle) against its natural-language specification.

The development shallowly embeds the core of the program:

* the Hangul codec (`pairrot/hangul/utils.py`, with the phoneme tables of
  `pairrot/constants.py`): decomposition of a precomposed Hangul syllable
  into its atomic phonemes (jamos);
* the six hint predicates (`pairrot/hints.py`);
* the candidate filtering, feedback, reset and solve loop of the abstract
  `Solver` (`pairrot/solver.py`);
* the `BruteForceSolver`, `MaximumEntropySolver` and `CombinedSolver`
  suggestion engines (`pairrot/solver.py`).

Syllables are embedded as their Unicode code points (`Nat`), words as lists
of code points (Python strings of syllables), and jamos as `Char`.  Python
dictionaries whose insertion order matters are embedded as association
lists.  The `numpy.float32` mean used by `BruteForceSolver` is embedded as
exact IEEE-754 binary32 arithmetic over the rationals the float values
denote, with numpy's platform-dependent summation order abstracted as an
arbitrary binary32 summation tree.
-/

namespace Pairrot

/-- A jamo (atomic Hangul phoneme) is a single character. -/
abbrev Jamo := Char

/-- A word is a string of syllables, i.e. a list of code points
(`pairrot/hangul/types.py` aliases `Word = str`). -/
abbrev Word := List Nat

/-! ### Hangul codec: tables from `pairrot/constants.py` -/

/-- `BASE_CODE = 0xAC00`, the first precomposed Hangul syllable. -/
def BASE_CODE : Nat := 0xAC00

/-- `NUM_SYLLABLES = 11172`. -/
def NUM_SYLLABLES : Nat := 11172

/-- `CHOSUNG_BASE = 588`. -/
def CHOSUNG_BASE : Nat := 588

/-- `JUNGSUNG_BASE = 28`. -/
def JUNGSUNG_BASE : Nat := 28

/-- The 19 initial consonants (chosungs), in table order. -/
def CHOSUNGS : List Jamo :=
  ['ㄱ', 'ㄲ', 'ㄴ', 'ㄷ', 'ㄸ', 'ㄹ', 'ㅁ', 'ㅂ', 'ㅃ', 'ㅅ',
   'ㅆ', 'ㅇ', 'ㅈ', 'ㅉ', 'ㅊ', 'ㅋ', 'ㅌ', 'ㅍ', 'ㅎ']

/-- The 21 medial vowels (jungsungs), in table order. -/
def JUNGSUNGS : List Jamo :=
  ['ㅏ', 'ㅐ', 'ㅑ', 'ㅒ', 'ㅓ', 'ㅔ', 'ㅕ', 'ㅖ', 'ㅗ', 'ㅘ',
   'ㅙ', 'ㅚ', 'ㅛ', 'ㅜ', 'ㅝ', 'ㅞ', 'ㅟ', 'ㅠ', 'ㅡ', 'ㅢ', 'ㅣ']

/-- The 28 final consonants (jongsungs), in table order; index 0 is the
empty string in the source, embedded as `none`. -/
def JONGSUNGS : List (Option Jamo) :=
  [none, some 'ㄱ', some 'ㄲ', some 'ㄳ', some 'ㄴ', some 'ㄵ', some 'ㄶ',
   some 'ㄷ', some 'ㄹ', some 'ㄺ', some 'ㄻ', some 'ㄼ', some 'ㄽ',
   some 'ㄾ', some 'ㄿ', some 'ㅀ', some 'ㅁ', some 'ㅂ', some 'ㅄ',
   some 'ㅅ', some 'ㅆ', some 'ㅇ', some 'ㅈ', some 'ㅊ', some 'ㅋ',
   some 'ㅌ', some 'ㅍ', some 'ㅎ']

/-- `JUNGSUNG_SPLIT_MAP.get(c, (c,))`: compound medial vowels split into
their two atomic vowels; other vowels decompose to themselves. -/
def JUNGSUNG_SPLIT_MAP (c : Jamo) : List Jamo :=
  if c = 'ㅘ' then ['ㅗ', 'ㅏ']
  else if c = 'ㅙ' then ['ㅗ', 'ㅐ']
  else if c = 'ㅚ' then ['ㅗ', 'ㅣ']
  else if c = 'ㅝ' then ['ㅜ', 'ㅓ']
  else if c = 'ㅞ' then ['ㅜ', 'ㅔ']
  else if c = 'ㅟ' then ['ㅜ', 'ㅣ']
  else if c = 'ㅢ' then ['ㅡ', 'ㅣ']
  else [c]

/-- `JONGSUNG_SPLIT_MAP.get(c, (c,))`: compound final consonant clusters
split into their two atomic consonants; other finals decompose to
themselves. -/
def JONGSUNG_SPLIT_MAP (c : Jamo) : List Jamo :=
  if c = 'ㄳ' then ['ㄱ', 'ㅅ']
  else if c = 'ㄵ' then ['ㄴ', 'ㅈ']
  else if c = 'ㄶ' then ['ㄴ', 'ㅎ']
  else if c = 'ㄺ' then ['ㄹ', 'ㄱ']
  else if c = 'ㄻ' then ['ㄹ', 'ㅁ']
  else if c = 'ㄼ' then ['ㄹ', 'ㅂ']
  else if c = 'ㄽ' then ['ㄹ', 'ㅅ']
  else if c = 'ㄾ' then ['ㄹ', 'ㅌ']
  else if c = 'ㄿ' then ['ㄹ', 'ㅍ']
  else if c = 'ㅀ' then ['ㄹ', 'ㅎ']
  else if c = 'ㅄ' then ['ㅂ', 'ㅅ']
  else [c]

/-! ### Hangul codec: `pairrot/hangul/utils.py` -/

/-- `is_hangul`: membership of the code point in the precomposed Hangul
syllable block. -/
def is_hangul (s : Nat) : Bool :=
  decide (BASE_CODE ≤ s ∧ s < BASE_CODE + NUM_SYLLABLES)

/-- `extract_chosung`: the initial consonant of a syllable. -/
def extract_chosung (s : Nat) : Jamo :=
  CHOSUNGS.getD ((s - BASE_CODE) / CHOSUNG_BASE) ' '

/-- `extract_jungsung`: the (possibly compound) medial vowel. -/
def extract_jungsung (s : Nat) : Jamo :=
  JUNGSUNGS.getD (((s - BASE_CODE) % CHOSUNG_BASE) / JUNGSUNG_BASE) ' '

/-- `extract_jongsung`: the (possibly compound) final consonant, `none`
when the syllable has no final. -/
def extract_jongsung (s : Nat) : Option Jamo :=
  JONGSUNGS.getD ((s - BASE_CODE) % JUNGSUNG_BASE) none

/-- `_decompose_jongsung(jongsung)`: empty when there is no final,
otherwise the (split) final consonant parts. -/
def decompose_jongsung_parts : Option Jamo → List Jamo
  | none => []
  | some c => JONGSUNG_SPLIT_MAP c

/-- `decompose_hangul(syllable)`: initial consonant, then the medial vowel
parts, then the final consonant parts.  The source raises `ValueError` on a
non-Hangul input; the embedding is total and all theorems restrict to
`is_hangul` inputs. -/
def decompose_hangul (s : Nat) : List Jamo :=
  extract_chosung s ::
    (JUNGSUNG_SPLIT_MAP (extract_jungsung s) ++
      decompose_jongsung_parts (extract_jongsung s))

/-! ### Hint predicates: `pairrot/hints.py` -/

/-- A hint's bound slot in the two-syllable word. -/
inductive Position where
  | first
  | second
deriving DecidableEq

/-- `INDEX_BY_POSITION = {"first": 0, "second": 1}`. -/
def INDEX_BY_POSITION : Position → Nat
  | .first => 0
  | .second => 1

/-- The six hint variants of `pairrot/hints.py`, in source order:
Apple (사과), Banana (바나나), Eggplant (가지), Garlic (마늘),
Mushroom (버섯), Carrot (당근). -/
inductive HintKind where
  | apple
  | banana
  | eggplant
  | garlic
  | mushroom
  | carrot
deriving DecidableEq

/-- A hint instance: a variant together with its bound reference syllable
and position (the fields every `Hint.__init__` stores). -/
structure Hint where
  kind : HintKind
  syllable : Nat
  pos : Position
deriving DecidableEq

/-- `set(decompose_hangul(syllable))`: the jamo set of a syllable. -/
def jamoSet (s : Nat) : Finset Jamo :=
  (decompose_hangul s).toFinset

/-- `len(intersection(self.jamo_set_standard, jamos))`: number of jamos
shared by the reference syllable and another syllable. -/
def hitCount (ref s : Nat) : Nat :=
  (jamoSet ref ∩ jamoSet s).card

/-- `has_common_jamo` (Apple/Banana): the syllable shares at least one
jamo with the reference syllable. -/
def has_common_jamo (ref s : Nat) : Bool :=
  decide (0 < hitCount ref s)

/-- `has_single_common_jamo` (Eggplant). -/
def has_single_common_jamo (ref s : Nat) : Bool :=
  decide (hitCount ref s = 1)

/-- `has_multiple_common_jamos` (Garlic/Mushroom). -/
def has_multiple_common_jamos (ref s : Nat) : Bool :=
  decide (2 ≤ hitCount ref s)

/-- `has_equal_chosung` (Garlic/Mushroom): the first element of the
decomposed jamo tuples agree. -/
def has_equal_chosung (ref s : Nat) : Bool :=
  decide ((decompose_hangul ref).headD ' ' = (decompose_hangul s).headD ' ')

/-- `Hint.__call__(syllable_direct, syllable_indirect)` for each of the six
variants, following each class's `__call__` body. -/
def hintHolds (h : Hint) (syllable_direct syllable_indirect : Nat) : Bool :=
  match h.kind with
  | .apple =>
      !has_common_jamo h.syllable syllable_direct &&
        !has_common_jamo h.syllable syllable_indirect
  | .banana =>
      !has_common_jamo h.syllable syllable_direct &&
        has_common_jamo h.syllable syllable_indirect
  | .eggplant => has_single_common_jamo h.syllable syllable_direct
  | .garlic =>
      has_multiple_common_jamos h.syllable syllable_direct &&
        !decide (h.syllable = syllable_direct) &&
        !has_equal_chosung h.syllable syllable_direct
  | .mushroom =>
      has_multiple_common_jamos h.syllable syllable_direct &&
        !decide (syllable_direct = h.syllable) &&
        has_equal_chosung h.syllable syllable_direct
  | .carrot => decide (syllable_direct = h.syllable)

/-- `Hint.can_be_answer(word)` (named `is_compatible` in the solver's
version of the hint interface, with identical semantics): evaluate the hint
on the word's syllable at the bound position (direct) and the other
syllable (indirect). -/
def can_be_answer (h : Hint) (w : Word) : Bool :=
  hintHolds h (w.getD (INDEX_BY_POSITION h.pos) 0)
    (w.getD (1 - INDEX_BY_POSITION h.pos) 0)

/-- The six hint variants constructed from a reference syllable at a fixed
position, in the source declaration order. -/
def hintVariants (ref : Nat) (pos : Position) : List Hint :=
  [⟨.apple, ref, pos⟩, ⟨.banana, ref, pos⟩, ⟨.eggplant, ref, pos⟩,
   ⟨.garlic, ref, pos⟩, ⟨.mushroom, ref, pos⟩, ⟨.carrot, ref, pos⟩]

/-! ### Basic facts about the decomposition -/

/-- The compound-vowel split of any medial vowel is nonempty. -/
lemma jungsung_split_ne_nil (c : Jamo) : JUNGSUNG_SPLIT_MAP c ≠ [] := by
  unfold JUNGSUNG_SPLIT_MAP
  split_ifs <;> simp

/-- No initial consonant coincides with the first atomic part of any medial
vowel: the 19 chosungs are consonant symbols, the medial parts vowel
symbols. -/
lemma chosung_ne_medial_table :
    ∀ ci < 19, ∀ ji < 21,
      CHOSUNGS.getD ci ' ' ≠
        (JUNGSUNG_SPLIT_MAP (JUNGSUNGS.getD ji ' ')).headD ' ' := by
  decide

/-- For a Hangul syllable, the initial consonant differs from the first
medial-vowel part. -/
lemma chosung_ne_medial {s : Nat} (hs : is_hangul s = true) :
    extract_chosung s ≠ (JUNGSUNG_SPLIT_MAP (extract_jungsung s)).headD ' ' := by
  obtain ⟨hsl, hsr⟩ : 0xAC00 ≤ s ∧ s < 0xAC00 + 11172 := by
    simpa [is_hangul, BASE_CODE, NUM_SYLLABLES] using hs
  have h1 : (s - BASE_CODE) / CHOSUNG_BASE < 19 := by
    have hlt : s - BASE_CODE < 11172 := by
      simp only [BASE_CODE]
      omega
    exact Nat.div_lt_of_lt_mul (by simpa [CHOSUNG_BASE] using hlt)
  have h2 : ((s - BASE_CODE) % CHOSUNG_BASE) / JUNGSUNG_BASE < 21 := by
    have hm : (s - BASE_CODE) % CHOSUNG_BASE < 588 :=
      Nat.mod_lt _ (by simp [CHOSUNG_BASE])
    exact Nat.div_lt_of_lt_mul (by simpa [JUNGSUNG_BASE] using hm)
  exact chosung_ne_medial_table _ h1 _ h2

/-- The initial consonant belongs to the syllable's jamo set. -/
lemma chosung_mem_jamoSet (s : Nat) : extract_chosung s ∈ jamoSet s := by
  simp [jamoSet, decompose_hangul]

/-- The first medial-vowel part belongs to the syllable's jamo set. -/
lemma medial_mem_jamoSet (s : Nat) :
    (JUNGSUNG_SPLIT_MAP (extract_jungsung s)).headD ' ' ∈ jamoSet s := by
  obtain ⟨a, t, he⟩ : ∃ a t, JUNGSUNG_SPLIT_MAP (extract_jungsung s) = a :: t := by
    cases h : JUNGSUNG_SPLIT_MAP (extract_jungsung s) with
    | nil => exact absurd h (jungsung_split_ne_nil _)
    | cons a t => exact ⟨a, t, rfl⟩
  simp [jamoSet, decompose_hangul, he]

/-- Every Hangul syllable decomposes into at least two distinct jamos
(its initial consonant and a medial vowel part). -/
lemma two_le_card_jamoSet {s : Nat} (hs : is_hangul s = true) :
    2 ≤ (jamoSet s).card := by
  have h : 1 < (jamoSet s).card :=
    Finset.one_lt_card.mpr
      ⟨extract_chosung s, chosung_mem_jamoSet s,
       (JUNGSUNG_SPLIT_MAP (extract_jungsung s)).headD ' ', medial_mem_jamoSet s,
       chosung_ne_medial hs⟩
  omega

/-- A Hangul syllable shares at least two jamos with itself. -/
lemma two_le_hitCount_self {s : Nat} (hs : is_hangul s = true) :
    2 ≤ hitCount s s := by
  rw [hitCount, Finset.inter_self]
  exact two_le_card_jamoSet hs

/-! ### The six hints are mutually exclusive and exhaustive -/

/-- Among the six hint variants built on a Hangul reference syllable at a
fixed position, exactly one holds of any (direct, indirect) syllable
pair. -/
lemma exactly_one_hint (ref d i : Nat) (pos : Position)
    (href : is_hangul ref = true) :
    (hintVariants ref pos).countP (fun h => hintHolds h d i) = 1 := by
  have hself : 2 ≤ hitCount ref ref := two_le_hitCount_self href
  simp only [hintVariants, List.countP_cons, List.countP_nil]
  simp only [hintHolds, has_common_jamo, has_single_common_jamo,
    has_multiple_common_jamos, has_equal_chosung, Bool.and_eq_true,
    Bool.not_eq_true', decide_eq_true_eq, decide_eq_false_iff_not]
  by_cases hdr : d = ref
  · subst hdr
    simp only [not_true_eq_false, and_false, false_and, if_false, if_true]
    have : ¬hitCount d d = 1 := by omega
    have : ¬¬0 < hitCount d d := by omega
    split_ifs <;> omega
  · have hdr' : ¬ref = d := fun h => hdr h.symm
    by_cases hch :
        (decompose_hangul ref).headD ' ' = (decompose_hangul d).headD ' ' <;>
      split_ifs <;> simp_all <;> omega
/-- C1: For every reference syllable, direct syllable and indirect syllable
(each a single Hangul syllable), exactly one of the six hint variants
(Apple, Banana, Eggplant, Garlic, Mushroom, Carrot) constructed from the
reference at a fixed position is compatible with the (direct, indirect)
pair: the six predicates are mutually exclusive and exhaustive. -/
theorem hints_mutually_exclusive_exhaustive (ref d i : Nat) (pos : Position)
    (href : is_hangul ref = true) (_hd : is_hangul d = true)
    (_hi : is_hangul i = true) :
    (hintVariants ref pos).countP (fun h => hintHolds h d i) = 1 :=
  exactly_one_hint ref d i pos href

/-- Witness for C1 at the reference syllable 맑 bound at the first
position, with the guess 고수 (direct 고, indirect 수). -/
theorem hints_mutually_exclusive_exhaustive_witness :
    (is_hangul 0xB9D1 = true ∧ is_hangul 0xACE0 = true ∧
      is_hangul 0xC218 = true) ∧
    (hintVariants 0xB9D1 Position.first).countP
      (fun h => hintHolds h 0xACE0 0xC218) = 1 :=
  ⟨⟨by decide, by decide, by decide⟩,
   hints_mutually_exclusive_exhaustive 0xB9D1 0xACE0 0xC218 Position.first
     (by decide) (by decide) (by decide)⟩

/-- C3: For every syllable of the Hangul block, `decompose_hangul` is the
initial consonant, followed by the medial vowel parts, followed by the
final consonant parts (empty when there is no final), compound medials and
finals being split by the fixed split tables; in particular
`decompose_hangul` maps 각 to (ㄱ, ㅏ, ㄱ), 강 to (ㄱ, ㅏ, ㅇ) and 갉 to
(ㄱ, ㅏ, ㄹ, ㄱ). -/
theorem decompose_hangul_concat (s : Nat) (_hs : is_hangul s = true) :
    (decompose_hangul s =
      CHOSUNGS.getD ((s - BASE_CODE) / (21 * 28)) ' ' ::
        (JUNGSUNG_SPLIT_MAP
            (JUNGSUNGS.getD ((s - BASE_CODE) % (21 * 28) / 28) ' ') ++
          (match JONGSUNGS.getD ((s - BASE_CODE) % 28) none with
           | none => []
           | some c => JONGSUNG_SPLIT_MAP c))) ∧
    ((s - BASE_CODE) % 28 = 0 →
      decompose_hangul s =
        CHOSUNGS.getD ((s - BASE_CODE) / (21 * 28)) ' ' ::
          JUNGSUNG_SPLIT_MAP
            (JUNGSUNGS.getD ((s - BASE_CODE) % (21 * 28) / 28) ' ')) ∧
    decompose_hangul 0xAC01 = ['ㄱ', 'ㅏ', 'ㄱ'] ∧
    decompose_hangul 0xAC15 = ['ㄱ', 'ㅏ', 'ㅇ'] ∧
    decompose_hangul 0xAC09 = ['ㄱ', 'ㅏ', 'ㄹ', 'ㄱ'] := by
  have hmain : decompose_hangul s =
      CHOSUNGS.getD ((s - BASE_CODE) / (21 * 28)) ' ' ::
        (JUNGSUNG_SPLIT_MAP
            (JUNGSUNGS.getD ((s - BASE_CODE) % (21 * 28) / 28) ' ') ++
          (match JONGSUNGS.getD ((s - BASE_CODE) % 28) none with
           | none => []
           | some c => JONGSUNG_SPLIT_MAP c)) := by
    have h588 : (21 * 28 : Nat) = CHOSUNG_BASE := by norm_num [CHOSUNG_BASE]
    have h28 : (28 : Nat) = JUNGSUNG_BASE := by norm_num [JUNGSUNG_BASE]
    rw [decompose_hangul, extract_chosung, extract_jungsung, extract_jongsung,
      h588, h28]
    rcases h : JONGSUNGS.getD ((s - BASE_CODE) % JUNGSUNG_BASE) none with _ | c <;>
      simp [decompose_jongsung_parts, h]
  refine ⟨hmain, ?_, by decide, by decide, by decide⟩
  intro h0
  rw [hmain, h0]
  have hnone : JONGSUNGS.getD 0 none = none := rfl
  rw [hnone]
  simp

/-- Witness for C3 at the syllable 각 (code point 0xAC01). -/
theorem decompose_hangul_concat_witness :
    is_hangul 0xAC01 = true ∧ decompose_hangul 0xAC01 = ['ㄱ', 'ㅏ', 'ㄱ'] :=
  ⟨by decide, (decompose_hangul_concat 0xAC01 (by decide)).2.2.1⟩

/-! ### Vocabulary labels and the abstract solver: `pairrot/solver.py`,
`pairrot/utils.py` -/

/-- The four word labels of `pairrot/types.py`. -/
inductive Label where
  | possible
  | impossible
  | maybe_possible
  | maybe_impossible
deriving DecidableEq

/-- `get_possible_words(word2label)` from `pairrot/utils.py`: the words
labeled `"possible"`, in vocabulary order. -/
def get_possible_words (word2label : List (Word × Label)) : List Word :=
  (word2label.filter (fun p => decide (p.2 = Label.possible))).map (·.1)

/-- `get_maybe_possible_words(word2label)` from `pairrot/utils.py`. -/
def get_maybe_possible_words (word2label : List (Word × Label)) : List Word :=
  (word2label.filter (fun p => decide (p.2 = Label.maybe_possible))).map (·.1)

/-- The state of the abstract `Solver`: the vocabulary (a word-to-label
mapping, embedded as an association list in insertion order) and the
candidate pool with its cached count. -/
structure SolverState where
  vocab : List (Word × Label)
  candidates : List Word
  num_candidates : Nat
deriving DecidableEq

/-- `Solver.__init__`: `self.vocab = _VOCAB.copy()`;
`self.candidates = self.vocab.copy()`; `self.num_candidates =
len(self.candidates)`.  The module-level `_VOCAB` mapping is external data,
so the construction is parameterized by it; iterating the copied dictionary
yields its keys, i.e. all vocabulary words. -/
def initSolver (vocab : List (Word × Label)) : SolverState :=
  { vocab := vocab
    candidates := vocab.map (·.1)
    num_candidates := (vocab.map (·.1)).length }

/-- `Solver.reset`: restore the candidate pool from the stored
vocabulary. -/
def resetSolver (s : SolverState) : SolverState :=
  { s with
    candidates := s.vocab.map (·.1)
    num_candidates := (s.vocab.map (·.1)).length }

/-- `Solver._filter_candidates(first_hint, second_hint)`: keep the words
compatible with both hints. -/
def filter_candidates (first_hint second_hint : Hint) (candidates : List Word) :
    List Word :=
  candidates.filter
    (fun w => can_be_answer first_hint w && can_be_answer second_hint w)

/-- The six hint names of `pairrot/types.py` (`HintName`), keys of
`HINT_BY_NAME` in `pairrot/constants.py`, romanized: 사과 (sagwa),
바나나 (banana), 가지 (gaji), 마늘 (maneul), 버섯 (beoseot),
당근 (danggeun). -/
inductive HintName where
  | sagwa
  | banana
  | gaji
  | maneul
  | beoseot
  | danggeun
deriving DecidableEq

/-- `HINT_BY_NAME`: the hint class denoted by each name. -/
def HINT_BY_NAME : HintName → HintKind
  | .sagwa => .apple
  | .banana => .banana
  | .gaji => .eggplant
  | .maneul => .garlic
  | .beoseot => .mushroom
  | .danggeun => .carrot

/-- A well-formed guess: exactly two Hangul syllables. -/
def ValidWord (w : Word) : Prop :=
  w.length = 2 ∧ is_hangul (w.getD 0 0) = true ∧ is_hangul (w.getD 1 0) = true

instance (w : Word) : Decidable (ValidWord w) := by
  unfold ValidWord
  infer_instance

/-- `Solver.feedback(pred, first_hint_name, second_hint_name)`: validate
the guessed word (raising `ValueError`, embedded as `Except.error`, before
any mutation), build the two bound hints, and replace the candidate pool by
the filtered result. -/
def feedback (s : SolverState) (pred : Word)
    (first_hint_name second_hint_name : HintName) : Except String SolverState :=
  if pred.length ≠ 2 then .error "pred's length must be 2."
  else if !(is_hangul (pred.getD 0 0) && is_hangul (pred.getD 1 0)) then
    .error "pred must be a korean."
  else
    let first_hint : Hint := ⟨HINT_BY_NAME first_hint_name, pred.getD 0 0, .first⟩
    let second_hint : Hint := ⟨HINT_BY_NAME second_hint_name, pred.getD 1 0, .second⟩
    let cs := filter_candidates first_hint second_hint s.candidates
    .ok { s with candidates := cs, num_candidates := cs.length }

/-- `Solver.feedback_pumpkin_hint(jamo)`: keep the candidates containing
the jamo in either syllable. -/
def feedback_pumpkin_hint (s : SolverState) (jamo : Jamo) : SolverState :=
  let cs := s.candidates.filter
    (fun w => decide (jamo ∈ jamoSet (w.getD 0 0) ∪ jamoSet (w.getD 1 0)))
  { s with candidates := cs, num_candidates := cs.length }

/-- Modelled from the spec: `compute_hint_pair`, which `pairrot/solver.py`
imports from `pairrot.utils` but which is absent from the provided source
files.  Spec §4.2: "for each position independently, iterate the six
variants constructed from the guessed syllable at that position and return
the first whose `compatible` check succeeds against the true word; fails
with an InternalInconsistency error if none match" (embedded as `none`). -/
def combine_hints : Option Hint → Option Hint → Option (Hint × Hint)
  | some h1, some h2 => some (h1, h2)
  | _, _ => none

def compute_hint_pair (true_word pred : Word) : Option (Hint × Hint) :=
  combine_hints
    ((hintVariants (pred.getD 0 0) .first).find?
      (fun h => can_be_answer h true_word))
    ((hintVariants (pred.getD 1 0) .second).find?
      (fun h => can_be_answer h true_word))

/-- One iteration of the `while True` body of `Solver.solve(answer)`:
suggest a word, append it to the history, stop when it is the answer,
otherwise derive the hint pair and recurse on the filtered pool.
`suggest` abstracts the subclass's suggestion method as a function of the
candidate pool; `none` models a raised exception. -/
def solve_body (suggest : List Word → Option Word) (answer : Word)
    (cs history : List Word)
    (rec : List Word → List Word → Option (List Word)) : Option (List Word) :=
  match suggest cs with
  | none => none
  | some best =>
    if best = answer then some (history ++ [best])
    else
      match compute_hint_pair answer best with
      | none => none
      | some (h1, h2) => rec (filter_candidates h1 h2 cs) (history ++ [best])

/-- The loop of `Solver.solve(answer)`, with an explicit fuel bound (the
source loops without a bound; the termination theorem shows the fuel
`|candidates| + 1` always suffices). -/
def solve_go (suggest : List Word → Option Word) (answer : Word) :
    Nat → List Word → List Word → Option (List Word)
  | 0, _, _ => none
  | fuel + 1, cs, history =>
    solve_body suggest answer cs history (solve_go suggest answer fuel)

/-- `Solver.solve(answer)`: reset, then loop suggest → compare → filter. -/
def solve (suggest : List Word → Option Word) (s : SolverState)
    (answer : Word) : Option (List Word) :=
  let s' := resetSolver s
  solve_go suggest answer (s'.candidates.length + 1) s'.candidates []

/-! ### C2: the initial candidate pool -/

/-- Counterexample to C2: on a vocabulary holding the single word 가나
labeled `"impossible"`, the freshly constructed candidate set contains that
impossible word and is not the label-filtered eligible set. -/
theorem init_candidates_contain_impossible_cex :
    (initSolver [([0xAC00, 0xB098], Label.impossible)]).candidates =
        [[0xAC00, 0xB098]] ∧
    ([0xAC00, 0xB098], Label.impossible) ∈
        [([0xAC00, 0xB098], Label.impossible)] ∧
    (initSolver [([0xAC00, 0xB098], Label.impossible)]).candidates ≠
        get_possible_words [([0xAC00, 0xB098], Label.impossible)] ∧
    (initSolver [([0xAC00, 0xB098], Label.impossible)]).candidates ≠
        get_possible_words [([0xAC00, 0xB098], Label.impossible)] ++
          get_maybe_possible_words [([0xAC00, 0xB098], Label.impossible)] := by
  decide

/-- C2 (amended): After constructing a solver and after every `reset()`,
the candidate set consists of all vocabulary words regardless of label —
no label filtering is applied, so words labeled `"impossible"` are included
whenever the vocabulary holds any. -/
theorem init_and_reset_candidates_are_whole_vocab (v : List (Word × Label))
    (s : SolverState) :
    (initSolver v).candidates = v.map Prod.fst ∧
    (initSolver v).num_candidates = v.length ∧
    (resetSolver s).candidates = s.vocab.map Prod.fst ∧
    (resetSolver s).num_candidates = s.vocab.length := by
  refine ⟨rfl, ?_, rfl, ?_⟩ <;> simp [initSolver, resetSolver]

/-! ### C6: filtering is a conjunctive, monotone, idempotent operation -/

/-- C6: For every candidate list and pair of hints, filtering keeps exactly
the words compatible with both hints; the filtered length never exceeds the
input length; and filtering an already-filtered list again with the same
hints changes nothing. -/
theorem filter_candidates_conj_monotone_idem (h1 h2 : Hint) (cs : List Word) :
    (∀ w, w ∈ filter_candidates h1 h2 cs ↔
      w ∈ cs ∧ can_be_answer h1 w = true ∧ can_be_answer h2 w = true) ∧
    (filter_candidates h1 h2 cs).length ≤ cs.length ∧
    filter_candidates h1 h2 (filter_candidates h1 h2 cs) =
      filter_candidates h1 h2 cs := by
  refine ⟨fun w => ?_, List.length_filter_le _ _, ?_⟩
  · simp [filter_candidates, List.mem_filter, and_assoc]
  · rw [filter_candidates, filter_candidates, List.filter_filter]
    congr 1
    funext w
    cases can_be_answer h1 w && can_be_answer h2 w <;> rfl

/-! ### C7: feedback fails fast on malformed guesses -/

/-- C7: For every solver state, a feedback call whose guessed word is not
exactly two Hangul syllables surfaces the invalid-word error and performs
no candidate-set mutation. -/
theorem feedback_invalid_word_fails_without_mutation (s : SolverState)
    (pred : Word) (n1 n2 : HintName) (hbad : ¬ValidWord pred) :
    (∃ e, feedback s pred n1 n2 = Except.error e) ∧
    (match feedback s pred n1 n2 with
     | .ok s' => s'
     | .error _ => s) = s := by
  have herr : ∃ e, feedback s pred n1 n2 = Except.error e := by
    by_cases hlen : pred.length = 2
    · have hcond :
          (!(is_hangul (pred.getD 0 0) && is_hangul (pred.getD 1 0))) = true := by
        cases e0 : is_hangul (pred.getD 0 0) <;>
          cases e1 : is_hangul (pred.getD 1 0) <;>
          simp_all [ValidWord]
      rw [feedback, if_neg (fun h => h hlen)]
      split_ifs
      exact ⟨_, rfl⟩
    · rw [feedback, if_pos hlen]
      exact ⟨_, rfl⟩
  obtain ⟨e, he⟩ := herr
  exact ⟨⟨e, he⟩, by rw [he]⟩

/-- Witness for C7: feedback on the empty word errors and leaves the state
of a one-word-vocabulary solver unchanged. -/
theorem feedback_invalid_word_witness :
    ¬ValidWord [] ∧
    ((∃ e, feedback (initSolver [([0xAC00, 0xB098], Label.possible)]) []
        HintName.sagwa HintName.sagwa = Except.error e) ∧
      (match feedback (initSolver [([0xAC00, 0xB098], Label.possible)]) []
          HintName.sagwa HintName.sagwa with
       | .ok s' => s'
       | .error _ => initSolver [([0xAC00, 0xB098], Label.possible)]) =
        initSolver [([0xAC00, 0xB098], Label.possible)]) :=
  ⟨by decide,
   feedback_invalid_word_fails_without_mutation
     (initSolver [([0xAC00, 0xB098], Label.possible)]) []
     HintName.sagwa HintName.sagwa (by decide)⟩

/-! ### The maximum-entropy suggestion engine (`MaximumEntropySolver`) -/

/-- `get_frequency_by_jamo(words)`: the multiset of jamos of all candidate
words (both syllables decomposed), whose counts form the frequency
counter. -/
def jamo_freq_list (words : List Word) : List Jamo :=
  words.flatMap
    (fun w => decompose_hangul (w.getD 0 0) ++ decompose_hangul (w.getD 1 0))

/-- The frequency counter as a function (`Counter` lookup; a jamo outside
the counter is only ever looked up with count ≥ 1 at the call sites). -/
def get_frequency_by_jamo (words : List Word) (j : Jamo) : Nat :=
  (jamo_freq_list words).count j

/-- `compute_jamo_frequency_score(word, jamo2frequency)`: sum of the
frequencies of the word's distinct jamos. -/
def compute_jamo_frequency_score (w : Word) (freq : Jamo → Nat) : Nat :=
  (jamoSet (w.getD 0 0) ∪ jamoSet (w.getD 1 0)).sum freq

/-- Python's `max(d, key=d.get)` over an association list in insertion
order: first entry wins ties, a later entry replaces the current maximum
only when strictly greater.  `none` embeds the `ValueError` raised on an
empty sequence. -/
def pyMax (l : List (Word × Nat)) : Option (Word × Nat) :=
  match l with
  | [] => none
  | x :: xs => some (xs.foldl (fun acc y => if acc.2 < y.2 then y else acc) x)

/-- `MaximumEntropySolver._select`: score every candidate by jamo
frequency and take the maximum (with Python's first-wins tie-break). -/
def max_entropy_select (cs : List Word) : Option (Word × Nat) :=
  pyMax (cs.map
    (fun w => (w, compute_jamo_frequency_score w (get_frequency_by_jamo cs))))

/-- `MaximumEntropySolver.suggest` restricted to the suggested word. -/
def max_entropy_suggest_word (cs : List Word) : Option Word :=
  (max_entropy_select cs).map (·.1)

/-- A first-wins fold over a list stays within the accumulator and the
list. -/
lemma foldl_ite_mem {α : Type} (p : α → α → Prop) [DecidableRel p] :
    ∀ (xs : List α) (acc : α),
      xs.foldl (fun a y => if p a y then y else a) acc ∈ acc :: xs := by
  intro xs
  induction xs with
  | nil => intro acc; simp
  | cons y ys ih =>
    intro acc
    have h := ih (if p acc y then y else acc)
    rcases List.mem_cons.mp h with h' | h'
    · rw [List.foldl_cons, h']
      by_cases hp : p acc y <;> simp [hp]
    · rw [List.foldl_cons]
      exact List.mem_cons_of_mem _ (List.mem_cons_of_mem _ h')

/-- The selected maximum belongs to the scored list. -/
lemma pyMax_mem {l : List (Word × Nat)} {x : Word × Nat}
    (h : pyMax l = some x) : x ∈ l := by
  match l, h with
  | y :: ys, h =>
    have hmem := foldl_ite_mem (fun a b : Word × Nat => a.2 < b.2) ys y
    have hx : ys.foldl (fun acc z => if acc.2 < z.2 then z else acc) y = x := by
      simpa [pyMax] using h
    rw [hx] at hmem
    exact hmem

/-- On a nonempty candidate pool, the maximum-entropy engine suggests a
member of the pool. -/
lemma max_entropy_suggest_word_mem (cs : List Word) (hne : cs ≠ []) :
    ∃ w ∈ cs, max_entropy_suggest_word cs = some w := by
  match cs, hne with
  | c :: cs', _ =>
    rcases hsel : max_entropy_select (c :: cs') with _ | x
    · exact absurd hsel (by simp [max_entropy_select, pyMax])
    · have hx := pyMax_mem (l := (c :: cs').map
        (fun w => (w, compute_jamo_frequency_score w
          (get_frequency_by_jamo (c :: cs'))))) (by simpa [max_entropy_select] using hsel)
      obtain ⟨w, hw, hweq⟩ := List.mem_map.mp hx
      have hx1 : x.1 = w := by rw [← hweq]
      refine ⟨x.1, ?_, by simp [max_entropy_suggest_word, hsel]⟩
      rw [hx1]
      exact hw

/-! ### Hint-pair derivation and the solve loop -/

/-- Over the six variants, the compatibility predicate on a fixed word
agrees with the raw direct/indirect predicate. -/
lemma countP_variants_can_be_answer (ref : Nat) (pos : Position) (w : Word)
    (href : is_hangul ref = true) :
    (hintVariants ref pos).countP (fun h => can_be_answer h w) = 1 := by
  have h1 := exactly_one_hint ref (w.getD (INDEX_BY_POSITION pos) 0)
    (w.getD (1 - INDEX_BY_POSITION pos) 0) pos href
  simpa only [hintVariants, List.countP_cons, List.countP_nil,
    can_be_answer] using h1

/-- The variant search of `compute_hint_pair` always succeeds on a Hangul
reference syllable, and the found hint is compatible with the true word,
bound to the reference syllable and the requested position. -/
lemma find_variant_some (ref : Nat) (pos : Position) (w : Word)
    (href : is_hangul ref = true) :
    ∃ h, (hintVariants ref pos).find? (fun h => can_be_answer h w) = some h ∧
      can_be_answer h w = true ∧ h.syllable = ref ∧ h.pos = pos := by
  have hcnt := countP_variants_can_be_answer ref pos w href
  have hex : ∃ x ∈ hintVariants ref pos, can_be_answer x w = true := by
    by_contra hno
    push_neg at hno
    have : (hintVariants ref pos).countP (fun h => can_be_answer h w) = 0 :=
      List.countP_eq_zero.mpr (by simpa using hno)
    omega
  have hsome : ((hintVariants ref pos).find?
      (fun h => can_be_answer h w)).isSome := by
    rw [List.find?_isSome]
    exact hex
  obtain ⟨h, hfind⟩ := Option.isSome_iff_exists.mp hsome
  have hmem := List.mem_of_find?_eq_some hfind
  have hsat := List.find?_some hfind
  have hfields : h.syllable = ref ∧ h.pos = pos := by
    simp only [hintVariants, List.mem_cons, List.not_mem_nil, or_false] at hmem
    rcases hmem with rfl | rfl | rfl | rfl | rfl | rfl <;> exact ⟨rfl, rfl⟩
  exact ⟨h, hfind, hsat, hfields.1, hfields.2⟩

/-- A hint found compatible with the true word rejects the guessed word
itself whenever the true and guessed syllables differ at the hint's
position (so each non-answer guess leaves the candidate pool). -/
lemma found_hint_rejects_guess (ref : Nat) (pos : Position)
    (answer guess : Word) (h : Hint) (href : is_hangul ref = true)
    (hmem : h ∈ hintVariants ref pos)
    (hans : can_be_answer h answer = true)
    (hguess : guess.getD (INDEX_BY_POSITION pos) 0 = ref)
    (hdiff : answer.getD (INDEX_BY_POSITION pos) 0 ≠ ref) :
    can_be_answer h guess = false := by
  have hhit : 0 < hitCount ref ref := by
    have := two_le_hitCount_self href
    omega
  have hhit2 : ¬hitCount ref ref = 1 := by
    have := two_le_hitCount_self href
    omega
  simp only [hintVariants, List.mem_cons, List.not_mem_nil, or_false] at hmem
  rcases hmem with rfl | rfl | rfl | rfl | rfl | rfl
  · simp only [can_be_answer, hintHolds]
    rw [hguess]
    simp [has_common_jamo, hhit]
  · simp only [can_be_answer, hintHolds]
    rw [hguess]
    simp [has_common_jamo, hhit]
  · simp only [can_be_answer, hintHolds]
    rw [hguess]
    simp [has_single_common_jamo, hhit2]
  · simp only [can_be_answer, hintHolds]
    rw [hguess]
    simp
  · simp only [can_be_answer, hintHolds]
    rw [hguess]
    simp
  · exfalso
    apply hdiff
    simpa [can_be_answer, hintHolds] using hans

/-- A two-syllable word is the list of its two syllables. -/
lemma word_eq_pair {w : Word} (h : w.length = 2) :
    w = [w.getD 0 0, w.getD 1 0] := by
  match w with
  | [a, b] => rfl

/-- Distinct two-syllable words differ at the first or the second
syllable. -/
lemma word_ne_iff {v w : Word} (hv : v.length = 2) (hw : w.length = 2)
    (hne : v ≠ w) :
    v.getD 0 0 ≠ w.getD 0 0 ∨ v.getD 1 0 ≠ w.getD 1 0 := by
  by_contra hno
  push_neg at hno
  apply hne
  rw [word_eq_pair hv, word_eq_pair hw, hno.1, hno.2]

/-- One round of the solve loop: for a wrong guess from the pool, the
derived hint pair exists, keeps the answer, rejects the guess, and strictly
shrinks the candidate pool. -/
lemma solve_step (answer best : Word) (cs : List Word)
    (ha : ValidWord answer) (hb : ValidWord best)
    (hbm : best ∈ cs) (ham : answer ∈ cs) (hne : best ≠ answer) :
    ∃ h1 h2, compute_hint_pair answer best = some (h1, h2) ∧
      answer ∈ filter_candidates h1 h2 cs ∧
      (filter_candidates h1 h2 cs).length < cs.length := by
  obtain ⟨h1, hfind1, hans1, hsyl1, hpos1⟩ :=
    find_variant_some (best.getD 0 0) .first answer hb.2.1
  obtain ⟨h2, hfind2, hans2, hsyl2, hpos2⟩ :=
    find_variant_some (best.getD 1 0) .second answer hb.2.2
  have hpair : compute_hint_pair answer best = some (h1, h2) := by
    rw [compute_hint_pair, hfind1, hfind2]
    rfl
  have hansmem : answer ∈ filter_candidates h1 h2 cs := by
    rw [filter_candidates, List.mem_filter]
    refine ⟨ham, ?_⟩
    rw [hans1, hans2]
    rfl
  have hbestout : can_be_answer h1 best = false ∨ can_be_answer h2 best = false := by
    rcases word_ne_iff ha.1 hb.1 (fun h => hne h.symm) with hd | hd
    · exact Or.inl (found_hint_rejects_guess (best.getD 0 0) .first answer best
        h1 hb.2.1 (List.mem_of_find?_eq_some hfind1) hans1 rfl hd)
    · exact Or.inr (found_hint_rejects_guess (best.getD 1 0) .second answer best
        h2 hb.2.2 (List.mem_of_find?_eq_some hfind2) hans2 rfl hd)
  have hlt : (filter_candidates h1 h2 cs).length < cs.length := by
    rw [filter_candidates]
    refine List.length_filter_lt_length_iff_exists.mpr ⟨best, hbm, ?_⟩
    rcases hbestout with hf | hf <;> simp [hf]
  exact ⟨h1, h2, hpair, hansmem, hlt⟩

/-- One-step unfolding of the solve loop. -/
lemma solve_go_succ (sug : List Word → Option Word) (answer : Word)
    (fuel : Nat) (cs hist : List Word) :
    solve_go sug answer (fuel + 1) cs hist =
      solve_body sug answer cs hist (solve_go sug answer fuel) := rfl

/-- The loop body stops with the extended history when the suggestion is
the answer. -/
lemma solve_body_found {sug : List Word → Option Word} {answer : Word}
    {cs hist : List Word} {best : Word}
    {rec : List Word → List Word → Option (List Word)}
    (hbs : sug cs = some best) (hbeq : best = answer) :
    solve_body sug answer cs hist rec = some (hist ++ [best]) := by
  simp only [solve_body, hbs]
  rw [if_pos hbeq]

/-- The loop body recurses on the filtered pool when the suggestion is
wrong. -/
lemma solve_body_step {sug : List Word → Option Word} {answer : Word}
    {cs hist : List Word} {best : Word} {h1 h2 : Hint}
    {rec : List Word → List Word → Option (List Word)}
    (hbs : sug cs = some best) (hbeq : ¬best = answer)
    (hp : compute_hint_pair answer best = some (h1, h2)) :
    solve_body sug answer cs hist rec =
      rec (filter_candidates h1 h2 cs) (hist ++ [best]) := by
  simp only [solve_body, hbs, hp]
  rw [if_neg hbeq]

/-- The solve loop with fuel one more than the pool size always succeeds
and ends on the answer, provided the answer is in the pool, every pool word
is well-formed, and the suggestion function always suggests a pool
member. -/
lemma solve_go_succeeds (sug : List Word → Option Word)
    (hsug : ∀ cs : List Word, cs ≠ [] → ∃ w ∈ cs, sug cs = some w)
    (answer : Word) (ha : ValidWord answer) :
    ∀ n (cs hist : List Word), cs.length ≤ n → answer ∈ cs →
      (∀ w ∈ cs, ValidWord w) →
      ∃ res, solve_go sug answer (n + 1) cs hist = some res ∧
        res.getLast? = some answer := by
  intro n
  induction n with
  | zero =>
    intro cs hist hlen hmem _
    rw [List.length_eq_zero.mp (Nat.le_zero.mp hlen)] at hmem
    cases hmem
  | succ n ih =>
    intro cs hist hlen hmem hval
    obtain ⟨best, hbmem, hbs⟩ := hsug cs (List.ne_nil_of_mem hmem)
    by_cases hbeq : best = answer
    · refine ⟨hist ++ [best], ?_, by rw [List.getLast?_concat, hbeq]⟩
      rw [solve_go_succ, solve_body_found hbs hbeq]
    · obtain ⟨h1, h2, hpair, hansmem, hlt⟩ :=
        solve_step answer best cs ha (hval best hbmem) hbmem hmem hbeq
      have hval' : ∀ w ∈ filter_candidates h1 h2 cs, ValidWord w := by
        intro w hw
        exact hval w (List.mem_of_mem_filter hw)
      have hlen' : (filter_candidates h1 h2 cs).length ≤ n := by omega
      obtain ⟨res, hres, hlast⟩ :=
        ih (filter_candidates h1 h2 cs) (hist ++ [best]) hlen' hansmem hval'
      refine ⟨res, ?_, hlast⟩
      rw [solve_go_succ, solve_body_step hbs hbeq hpair]
      exact hres

/-- C5: For every answer word in the initial candidate set (with every
vocabulary word well-formed and a suggestion engine that always suggests a
candidate), `solve(answer)` terminates within `|candidates| + 1` rounds and
the last element of the returned guess history equals the answer. -/
theorem solve_terminates_last_is_answer (sug : List Word → Option Word)
    (s : SolverState) (answer : Word)
    (hsug : ∀ cs : List Word, cs ≠ [] → ∃ w ∈ cs, sug cs = some w)
    (ha : ValidWord answer)
    (hmem : answer ∈ s.vocab.map Prod.fst)
    (hval : ∀ w ∈ s.vocab.map Prod.fst, ValidWord w) :
    ∃ res, solve sug s answer = some res ∧ res.getLast? = some answer :=
  solve_go_succeeds sug hsug answer ha _ _ [] le_rfl hmem hval

/-- Witness for C5: the max-entropy engine on the two-word vocabulary
{가나, 다라} solves for the answer 다라. -/
theorem solve_terminates_last_is_answer_witness :
    (∀ cs : List Word, cs ≠ [] → ∃ w ∈ cs, max_entropy_suggest_word cs = some w) ∧
    ValidWord [0xB2E4, 0xB77C] ∧
    [0xB2E4, 0xB77C] ∈
      ([([0xAC00, 0xB098], Label.possible), ([0xB2E4, 0xB77C], Label.possible)].map
        Prod.fst) ∧
    (∀ w ∈ ([([0xAC00, 0xB098], Label.possible),
        ([0xB2E4, 0xB77C], Label.possible)].map Prod.fst), ValidWord w) ∧
    ∃ res,
      solve max_entropy_suggest_word
        (initSolver [([0xAC00, 0xB098], Label.possible),
          ([0xB2E4, 0xB77C], Label.possible)]) [0xB2E4, 0xB77C] = some res ∧
      res.getLast? = some [0xB2E4, 0xB77C] :=
  ⟨max_entropy_suggest_word_mem, by decide, by decide, by decide,
   solve_terminates_last_is_answer max_entropy_suggest_word
     (initSolver [([0xAC00, 0xB098], Label.possible),
       ([0xB2E4, 0xB77C], Label.possible)]) [0xB2E4, 0xB77C]
     max_entropy_suggest_word_mem (by decide) (by decide) (by decide)⟩

/-! ### The brute-force suggestion engine (`BruteForceSolver`) -/

/-- Python string comparison on words (lexicographic over code points). -/
def wordLeB : List Nat → List Nat → Bool
  | [], _ => true
  | _ :: _, [] => false
  | a :: as, b :: bs =>
    if a < b then true
    else if b < a then false
    else wordLeB as bs

/-- `defaultdict(list)` update `d[w].append(s)`: append to the entry of an
existing key, create a new entry at the end otherwise (dictionary insertion
order). -/
def addScore (m : List (Word × List Nat)) (w : Word) (s : Nat) :
    List (Word × List Nat) :=
  match m with
  | [] => [(w, [s])]
  | (k, v) :: rest =>
    if k = w then (k, v ++ [s]) :: rest
    else (k, v) :: addScore rest w s

/-- `BruteForceSolver._compute_score`: the number of candidates surviving
the hint pair. -/
def compute_score (cs : List Word) (first_hint second_hint : Hint) : Nat :=
  (filter_candidates first_hint second_hint cs).length

/-- Score a derived hint pair against the candidate pool (the `none` case
is the unreachable InternalInconsistency branch, scored 0). -/
def pair_score (cs : List Word) : Option (Hint × Hint) → Nat
  | some (h1, h2) => compute_score cs h1 h2
  | none => 0

/-- Append a score for a derived hint pair (no-op on the unreachable
InternalInconsistency branch). -/
def update_score_aux (cs : List Word) (m : List (Word × List Nat))
    (pred : Word) : Option (Hint × Hint) → List (Word × List Nat)
  | some (h1, h2) => addScore m pred (compute_score cs h1 h2)
  | none => m

/-- `BruteForceSolver._update_score(true, pred)`: derive the hint pair for
(true, pred), score it against the current candidates, and append the score
to `word2scores[pred]`. -/
def update_score (cs : List Word) (m : List (Word × List Nat))
    (tr pred : Word) : List (Word × List Nat) :=
  update_score_aux cs m pred (compute_hint_pair tr pred)

/-- `BruteForceSolver._update_scores`: the double loop `for pred in
candidates: for true_assumed in candidates`. -/
def update_scores (cs : List Word) : List (Word × List Nat) :=
  cs.foldl (fun m pred => cs.foldl (fun m tr => update_score cs m tr pred) m) []

/-! #### IEEE-754 binary32 arithmetic (`np.float32`)

`_reduce_scores_by_word` computes `np.array(scores, dtype=np.float32).mean()`:
the integer scores are cast to binary32, summed in binary32 (numpy documents
same-precision accumulation for float input; the association order of the
partial sums — scalar pairwise blocks or SIMD lanes — is an implementation
detail of the platform), and the binary32 sum is divided in binary32 by the
binary32 cast of the count.  The embedding models binary32 values by the
exact rationals they denote, rounding to nearest (ties to even) at every
operation, and abstracts the platform-dependent summation order as an
arbitrary binary32 summation tree (`IsF32Mean`); the C4 theorem quantifies
over every such order, hence covers the platform's actual one. -/

/-- Round a rational to the nearest IEEE-754 binary32 value (round to
nearest, ties to even; 24-bit significand, subnormal quantum `2^(-149)`
below `2^(-126)`).  Overflow to infinity is not modelled: every value
arising in this development stays below `2^55`, far under the binary32
maximum `(2 - 2^(-23)) * 2^127`. -/
def roundB32 (q : ℚ) : ℚ :=
  if q = 0 then 0
  else
    let k : ℤ := max (Int.log 2 |q|) (-126) - 23
    let x : ℚ := q * (2 : ℚ) ^ (-k)
    let m : ℤ :=
      if x - ⌊x⌋ < 1 / 2 then ⌊x⌋
      else if 1 / 2 < x - ⌊x⌋ then ⌊x⌋ + 1
      else if ⌊x⌋ % 2 = 0 then ⌊x⌋ else ⌊x⌋ + 1
    (m : ℚ) * (2 : ℚ) ^ k

/-- binary32 addition. -/
def f32_add (a b : ℚ) : ℚ := roundB32 (a + b)

/-- binary32 division (`np.true_divide` on two binary32 operands). -/
def f32_div (a b : ℚ) : ℚ := roundB32 (a / b)

/-- The binary32 cast of a nonnegative integer (`np.array(-, dtype=
np.float32)` on the scores, and the count cast of the mean's division);
exact below `2^24`. -/
def toF32 (n : Nat) : ℚ := roundB32 n

/-- A tree of binary32 additions: the shape of any platform's float32 array
sum (sequential loop, numpy's 8-fold-unrolled pairwise blocks, SIMD lanes
with a final horizontal reduction) over the array elements. -/
inductive SumTree where
  | leaf (q : ℚ)
  | node (l r : SumTree)

/-- The binary32 value of a summation tree. -/
def SumTree.eval : SumTree → ℚ
  | .leaf q => q
  | .node l r => f32_add l.eval r.eval

/-- The leaves of a summation tree, left to right. -/
def SumTree.leafList : SumTree → List ℚ
  | .leaf q => [q]
  | .node l r => l.leafList ++ r.leafList

/-- `μ` computes `np.array(l, dtype=np.float32).mean()` for some
(platform-dependent) summation order: for every score list there is a
binary32 summation tree whose leaves are the binary32 casts of the scores,
in some order, plus any number of zero leaves (accumulator
initializations), and `μ l` is the tree's binary32 sum divided in binary32
by the binary32 cast of the count. -/
def IsF32Mean (μ : List Nat → ℚ) : Prop :=
  ∀ l : List Nat, ∃ (t : SumTree) (k : Nat),
    List.Perm t.leafList (l.map toF32 ++ List.replicate k 0) ∧
    μ l = f32_div t.eval (toF32 l.length)

/-- One representative binary32 mean: the sequential left-to-right
summation loop (numpy's scalar base case `res = 0.; res += a[i]`), divided
in binary32 by the cast count. -/
def list_mean (l : List Nat) : ℚ :=
  f32_div ((l.map toF32).foldl f32_add 0) (toF32 l.length)

/-- The sort key of `_reduce_scores_by_word`: ascending by
`(mean score, word)`; binary32 comparison of finite values is comparison of
the denoted rationals. -/
def scoreWordLe (a b : Word × ℚ) : Bool :=
  decide (a.2 < b.2) || (decide (a.2 = b.2) && wordLeB a.1 b.1)

/-- `BruteForceSolver._reduce_scores_by_word`: map every entry to its
binary32 mean (`μ`, the platform's float32 mean computation) and sort the
dictionary by `(item[1], item[0])` (Python's stable sort). -/
def reduce_scores_by_word (μ : List Nat → ℚ) (m : List (Word × List Nat)) :
    List (Word × ℚ) :=
  (m.map (fun p => (p.1, μ p.2))).mergeSort scoreWordLe

/-- Python's `min(d, key=d.get)` over an association list in insertion
order: first entry wins ties, a later entry replaces the current minimum
only when strictly smaller.  `none` embeds the `ValueError` raised on an
empty sequence. -/
def pyMin (l : List (Word × ℚ)) : Option (Word × ℚ) :=
  match l with
  | [] => none
  | x :: xs => some (xs.foldl (fun acc y => if y.2 < acc.2 then y else acc) x)

/-- `BruteForceSolver._select`. -/
def bf_select (m : List (Word × ℚ)) : Option (Word × ℚ) :=
  pyMin m

/-- `BruteForceSolver.suggest` as a function of the candidate pool:
clear, update scores, reduce (with the platform's binary32 mean `μ`),
select. -/
def brute_force_suggest (μ : List Nat → ℚ) (cs : List Word) :
    Option (Word × ℚ) :=
  bf_select (reduce_scores_by_word μ (update_scores cs))

/-- The score `_update_score(true, pred)` records for `pred`. -/
def word_score (cs : List Word) (tr pred : Word) : Nat :=
  pair_score cs (compute_hint_pair tr pred)

/-- The binary32 mean remaining-candidates score of a candidate guess. -/
def mean_score (μ : List Nat → ℚ) (cs : List Word) (pred : Word) : ℚ :=
  μ (cs.map (fun tr => word_score cs tr pred))

/-- For a well-formed guessed word, the hint-pair derivation always
succeeds (exhaustiveness of the six variants). -/
lemma compute_hint_pair_isSome (tr pred : Word) (hp : ValidWord pred) :
    ∃ h1 h2, compute_hint_pair tr pred = some (h1, h2) := by
  obtain ⟨h1, hfind1, -, -, -⟩ :=
    find_variant_some (pred.getD 0 0) .first tr hp.2.1
  obtain ⟨h2, hfind2, -, -, -⟩ :=
    find_variant_some (pred.getD 1 0) .second tr hp.2.2
  refine ⟨h1, h2, ?_⟩
  rw [compute_hint_pair, hfind1, hfind2]
  rfl

/-- `_update_score` is a `defaultdict` append of the recorded score. -/
lemma update_score_eq (cs : List Word) (m : List (Word × List Nat))
    (tr pred : Word) (h : ∃ h1 h2, compute_hint_pair tr pred = some (h1, h2)) :
    update_score cs m tr pred = addScore m pred (word_score cs tr pred) := by
  obtain ⟨h1, h2, hp⟩ := h
  rw [update_score, word_score, hp]
  rfl

/-- Defining equation of `addScore` on a cons cell. -/
lemma addScore_cons (k : Word) (v : List Nat) (rest : List (Word × List Nat))
    (w : Word) (s : Nat) :
    addScore ((k, v) :: rest) w s =
      if k = w then (k, v ++ [s]) :: rest
      else (k, v) :: addScore rest w s := rfl

/-- Appending a score for an absent key creates its entry at the end. -/
lemma addScore_absent (w : Word) (s : Nat) :
    ∀ (m : List (Word × List Nat)), w ∉ m.map Prod.fst →
      addScore m w s = m ++ [(w, [s])] := by
  intro m
  induction m with
  | nil => intro _; rfl
  | cons kv rest ih =>
    intro hk
    obtain ⟨k, v⟩ := kv
    simp only [List.map_cons, List.mem_cons] at hk
    push_neg at hk
    rw [addScore_cons, if_neg (fun h => hk.1 h.symm), ih hk.2]
    rfl

/-- Appending a score for a present key extends that entry in place. -/
lemma addScore_found (w : Word) (s : Nat) (v : List Nat)
    (m2 : List (Word × List Nat)) :
    ∀ (m1 : List (Word × List Nat)), w ∉ m1.map Prod.fst →
      addScore (m1 ++ (w, v) :: m2) w s = m1 ++ (w, v ++ [s]) :: m2 := by
  intro m1
  induction m1 with
  | nil =>
    intro _
    simp only [List.nil_append]
    rw [addScore_cons, if_pos rfl]
  | cons kv rest ih =>
    intro hk
    obtain ⟨k, v1⟩ := kv
    simp only [List.map_cons, List.mem_cons] at hk
    push_neg at hk
    simp only [List.cons_append]
    rw [addScore_cons, if_neg (fun h => hk.1 h.symm), ih hk.2]

/-- The inner `for true_assumed in candidates` loop keeps appending to the
guess's existing entry. -/
lemma inner_present (cs : List Word) (pred : Word) :
    ∀ (trs : List Word) (m1 : List (Word × List Nat)) (v : List Nat)
      (m2 : List (Word × List Nat)),
      pred ∉ m1.map Prod.fst →
      (∀ tr ∈ trs, ∃ h1 h2, compute_hint_pair tr pred = some (h1, h2)) →
      trs.foldl (fun m tr => update_score cs m tr pred) (m1 ++ (pred, v) :: m2) =
        m1 ++ (pred, v ++ trs.map (fun tr => word_score cs tr pred)) :: m2 := by
  intro trs
  induction trs with
  | nil =>
    intro m1 v m2 _ _
    simp
  | cons tr trs ih =>
    intro m1 v m2 hnk hsome
    rw [List.foldl_cons,
      update_score_eq cs _ tr pred (hsome tr (List.mem_cons_self _ _)),
      addScore_found pred _ v m2 m1 hnk,
      ih m1 (v ++ [word_score cs tr pred]) m2 hnk
        (fun t ht => hsome t (List.mem_cons_of_mem _ ht))]
    simp

/-- The inner loop creates the guess's full score list when the guess has
no entry yet. -/
lemma inner_loop (cs : List Word) (pred : Word) (trs : List Word)
    (m : List (Word × List Nat)) (hnk : pred ∉ m.map Prod.fst)
    (hne : trs ≠ [])
    (hsome : ∀ tr ∈ trs, ∃ h1 h2, compute_hint_pair tr pred = some (h1, h2)) :
    trs.foldl (fun m tr => update_score cs m tr pred) m =
      m ++ [(pred, trs.map (fun tr => word_score cs tr pred))] := by
  match trs, hne with
  | tr :: trs, _ =>
    rw [List.foldl_cons,
      update_score_eq cs m tr pred (hsome tr (List.mem_cons_self _ _)),
      addScore_absent pred _ m hnk,
      inner_present cs pred trs m [word_score cs tr pred] [] hnk
        (fun t ht => hsome t (List.mem_cons_of_mem _ ht))]
    simp

/-- The outer `for pred in candidates` loop builds one entry per distinct
guess, in candidate order. -/
lemma outer_loop (cs : List Word) (hne : cs ≠ []) :
    ∀ (preds : List Word) (acc : List (Word × List Nat)),
      preds.Nodup → (∀ p ∈ preds, p ∉ acc.map Prod.fst) →
      (∀ p ∈ preds, ValidWord p) →
      preds.foldl
          (fun m pred => cs.foldl (fun m tr => update_score cs m tr pred) m)
          acc =
        acc ++ preds.map
          (fun pred => (pred, cs.map (fun tr => word_score cs tr pred))) := by
  intro preds
  induction preds with
  | nil =>
    intro acc _ _ _
    simp
  | cons p preds ih =>
    intro acc hnd hnk hval
    obtain ⟨hp_nin, hnd'⟩ := List.nodup_cons.mp hnd
    rw [List.foldl_cons,
      inner_loop cs p cs acc (hnk p (List.mem_cons_self _ _)) hne
        (fun tr _ => compute_hint_pair_isSome tr p (hval p (List.mem_cons_self _ _)))]
    rw [ih (acc ++ [(p, cs.map (fun tr => word_score cs tr p))]) hnd'
      (fun q hq => by
        simp only [List.map_append, List.mem_append, List.map_cons,
          List.map_nil, List.mem_singleton]
        push_neg
        exact ⟨hnk q (List.mem_cons_of_mem _ hq),
          fun hqp => hp_nin (hqp ▸ hq)⟩)
      (fun q hq => hval q (List.mem_cons_of_mem _ hq))]
    simp

/-- `_update_scores` on a nonempty, duplicate-free pool of well-formed
words records, for every guess in order, the scores against every assumed
answer in order. -/
lemma update_scores_eq (cs : List Word) (hne : cs ≠ []) (hnd : cs.Nodup)
    (hval : ∀ w ∈ cs, ValidWord w) :
    update_scores cs =
      cs.map (fun pred => (pred, cs.map (fun tr => word_score cs tr pred))) := by
  rw [update_scores, outer_loop cs hne cs [] hnd (by simp) hval]
  simp

/-- `wordLeB` is reflexive. -/
lemma wordLeB_refl : ∀ a : List Nat, wordLeB a a = true := by
  intro a
  induction a with
  | nil => rfl
  | cons x xs ih => simp [wordLeB, ih]

/-- `wordLeB` is total. -/
lemma wordLeB_total : ∀ a b : List Nat, (wordLeB a b || wordLeB b a) = true := by
  intro a
  induction a with
  | nil => intro b; simp [wordLeB]
  | cons x xs ih =>
    intro b
    cases b with
    | nil => simp [wordLeB]
    | cons y ys =>
      by_cases h1 : x < y
      · simp [wordLeB, h1]
      · by_cases h2 : y < x
        · simp [wordLeB, h1, h2]
        · simp only [wordLeB, if_neg h1, if_neg h2]
          exact ih ys

/-- `wordLeB` is transitive. -/
lemma wordLeB_trans : ∀ a b c : List Nat,
    wordLeB a b = true → wordLeB b c = true → wordLeB a c = true := by
  intro a
  induction a with
  | nil => intro b c _ _; rfl
  | cons x xs ih =>
    intro b c hab hbc
    cases b with
    | nil => simp [wordLeB] at hab
    | cons y ys =>
      cases c with
      | nil => simp [wordLeB] at hbc
      | cons z zs =>
        simp only [wordLeB] at hab hbc ⊢
        by_cases hxy : x < y
        · by_cases hyz : y < z
          · rw [if_pos (lt_trans hxy hyz)]
          · by_cases hzy : z < y
            · rw [if_neg hyz, if_pos hzy] at hbc
              cases hbc
            · have hyz' : y = z := le_antisymm (not_lt.mp hzy) (not_lt.mp hyz)
              rw [if_pos (hyz' ▸ hxy)]
        · by_cases hyx : y < x
          · rw [if_neg hxy, if_pos hyx] at hab
            cases hab
          · have hxy' : x = y := le_antisymm (not_lt.mp hyx) (not_lt.mp hxy)
            subst hxy'
            rw [if_neg hxy, if_neg hyx] at hab
            by_cases hxz : x < z
            · rw [if_pos hxz]
            · by_cases hzx : z < x
              · rw [if_neg hxz, if_pos hzx] at hbc
                cases hbc
              · rw [if_neg hxz, if_neg hzx] at hbc ⊢
                exact ih ys zs hab hbc

/-- The `(mean score, word)` sort key is transitive. -/
lemma scoreWordLe_trans : ∀ a b c : Word × ℚ,
    scoreWordLe a b = true → scoreWordLe b c = true →
      scoreWordLe a c = true := by
  intro a b c hab hbc
  simp only [scoreWordLe, Bool.or_eq_true, Bool.and_eq_true,
    decide_eq_true_eq] at hab hbc ⊢
  rcases hab with hab | ⟨hab1, hab2⟩
  · rcases hbc with hbc | ⟨hbc1, hbc2⟩
    · exact Or.inl (lt_trans hab hbc)
    · exact Or.inl (hbc1 ▸ hab)
  · rcases hbc with hbc | ⟨hbc1, hbc2⟩
    · exact Or.inl (hab1 ▸ hbc)
    · exact Or.inr ⟨hab1.trans hbc1, wordLeB_trans _ _ _ hab2 hbc2⟩

/-- The `(mean score, word)` sort key is total. -/
lemma scoreWordLe_total : ∀ a b : Word × ℚ,
    (scoreWordLe a b || scoreWordLe b a) = true := by
  intro a b
  simp only [scoreWordLe, Bool.or_eq_true, Bool.and_eq_true,
    decide_eq_true_eq]
  rcases lt_trichotomy a.2 b.2 with h | h | h
  · exact Or.inl (Or.inl h)
  · have := wordLeB_total a.1 b.1
    simp only [Bool.or_eq_true] at this
    rcases this with hw | hw
    · exact Or.inl (Or.inr ⟨h, hw⟩)
    · exact Or.inr (Or.inr ⟨h.symm, hw⟩)
  · exact Or.inr (Or.inl h)

/-- Python's first-wins minimum never moves off an element that no later
element strictly undercuts. -/
lemma foldl_min_keep :
    ∀ (xs : List (Word × ℚ)) (acc : Word × ℚ),
      (∀ y ∈ xs, ¬(y.2 < acc.2)) →
      xs.foldl (fun acc y => if y.2 < acc.2 then y else acc) acc = acc := by
  intro xs
  induction xs with
  | nil => intro acc _; rfl
  | cons y ys ih =>
    intro acc h
    rw [List.foldl_cons, if_neg (h y (List.mem_cons_self _ _))]
    exact ih acc (fun z hz => h z (List.mem_cons_of_mem _ hz))

/-- On a list sorted by `(mean score, word)`, Python's first-wins minimum
is the head. -/
lemma pyMin_sorted {x : Word × ℚ} {xs : List (Word × ℚ)}
    (hs : List.Pairwise (fun a b => scoreWordLe a b = true) (x :: xs)) :
    pyMin (x :: xs) = some x := by
  have hall := (List.pairwise_cons.mp hs).1
  have hkeep : ∀ y ∈ xs, ¬(y.2 < x.2) := by
    intro y hy
    have h := hall y hy
    simp only [scoreWordLe, Bool.or_eq_true, Bool.and_eq_true,
      decide_eq_true_eq] at h
    rcases h with h | ⟨heq, -⟩
    · exact lt_asymm h
    · rw [heq]
      exact lt_irrefl _
  show some _ = some x
  rw [foldl_min_keep xs x hkeep]

/-- Evaluating a sequential summation loop as a left-comb tree. -/
def seqTree (acc : SumTree) : List ℚ → SumTree
  | [] => acc
  | x :: xs => seqTree (SumTree.node acc (SumTree.leaf x)) xs

/-- The left-comb tree evaluates to the left fold of binary32 addition. -/
lemma seqTree_eval (xs : List ℚ) :
    ∀ acc : SumTree, (seqTree acc xs).eval = xs.foldl f32_add acc.eval := by
  induction xs with
  | nil => intro acc; rfl
  | cons x xs ih =>
    intro acc
    rw [seqTree, ih, List.foldl_cons]
    rfl

/-- The left-comb tree's leaves are the accumulator's leaves followed by
the summed elements. -/
lemma seqTree_leafList (xs : List ℚ) :
    ∀ acc : SumTree, (seqTree acc xs).leafList = acc.leafList ++ xs := by
  induction xs with
  | nil => intro acc; simp [seqTree]
  | cons x xs ih =>
    intro acc
    rw [seqTree, ih]
    simp [SumTree.leafList]

/-- The sequential-loop mean is a binary32 mean computation. -/
lemma list_mean_isF32Mean : IsF32Mean list_mean := by
  intro l
  refine ⟨seqTree (SumTree.leaf 0) (l.map toF32), 1, ?_, ?_⟩
  · rw [seqTree_leafList]
    simpa [SumTree.leafList] using
      (@List.perm_append_comm ℚ [(0 : ℚ)] (l.map toF32))
  · rw [list_mean, seqTree_eval]
    rfl

/-- C4: For every binary32 mean computation `μ` — as
`np.array(scores, dtype=np.float32).mean()` is, for the platform's
summation order — and every nonempty (duplicate-free, well-formed)
candidate pool, `BruteForceSolver.suggest` returns the candidate whose
binary32 mean remaining-candidates score over all assumed answers in the
pool is minimal, together with that binary32 score, ties between equal
binary32 mean scores broken by lexicographic word order. -/
theorem brute_force_suggest_minimizes (μ : List Nat → ℚ)
    (_hμ : IsF32Mean μ) (cs : List Word) (hne : cs ≠ [])
    (hnd : cs.Nodup) (hval : ∀ w ∈ cs, ValidWord w) :
    ∃ w, brute_force_suggest μ cs = some (w, mean_score μ cs w) ∧ w ∈ cs ∧
      ∀ w' ∈ cs, mean_score μ cs w < mean_score μ cs w' ∨
        (mean_score μ cs w = mean_score μ cs w' ∧ wordLeB w w' = true) := by
  have hentries : (update_scores cs).map (fun p => (p.1, μ p.2)) =
      cs.map (fun pred => (pred, mean_score μ cs pred)) := by
    rw [update_scores_eq cs hne hnd hval, List.map_map]
    rfl
  have hL : reduce_scores_by_word μ (update_scores cs) =
      (cs.map (fun pred => (pred, mean_score μ cs pred))).mergeSort scoreWordLe := by
    rw [reduce_scores_by_word, hentries]
  have hperm : List.Perm (reduce_scores_by_word μ (update_scores cs))
      (cs.map (fun pred => (pred, mean_score μ cs pred))) := by
    rw [hL]
    exact List.mergeSort_perm _ _
  have hsorted : List.Pairwise (fun a b => scoreWordLe a b = true)
      (reduce_scores_by_word μ (update_scores cs)) := by
    rw [hL]
    exact List.sorted_mergeSort scoreWordLe_trans scoreWordLe_total _
  have hLne : reduce_scores_by_word μ (update_scores cs) ≠ [] := by
    intro h0
    have hlen := hperm.length_eq
    rw [h0] at hlen
    simp only [List.length_nil, List.length_map] at hlen
    exact hne (List.length_eq_zero.mp hlen.symm)
  obtain ⟨x, xs, hcons⟩ := List.exists_cons_of_ne_nil hLne
  have hsel : pyMin (reduce_scores_by_word μ (update_scores cs)) = some x := by
    rw [hcons]
    exact pyMin_sorted (hcons ▸ hsorted)
  have hxmem : x ∈ cs.map (fun pred => (pred, mean_score μ cs pred)) :=
    hperm.mem_iff.mp (hcons ▸ List.mem_cons_self _ _)
  obtain ⟨w, hw, hwx⟩ := List.mem_map.mp hxmem
  refine ⟨w, ?_, hw, ?_⟩
  · rw [brute_force_suggest, bf_select, hsel, ← hwx]
  · intro w' hw'
    have hmem' : (w', mean_score μ cs w') ∈
        reduce_scores_by_word μ (update_scores cs) :=
      hperm.mem_iff.mpr (List.mem_map_of_mem _ hw')
    rw [hcons] at hmem'
    rcases List.mem_cons.mp hmem' with heq | htail
    · have hpair : (w', mean_score μ cs w') = (w, mean_score μ cs w) :=
        heq.trans hwx.symm
      right
      refine ⟨(congrArg Prod.snd hpair).symm, ?_⟩
      have hw'w : w' = w := congrArg Prod.fst hpair
      rw [hw'w]
      exact wordLeB_refl w
    · have hle := (List.pairwise_cons.mp (hcons ▸ hsorted)).1 _ htail
      rw [← hwx] at hle
      simp only [scoreWordLe, Bool.or_eq_true, Bool.and_eq_true,
        decide_eq_true_eq] at hle
      rcases hle with h | ⟨h1, h2⟩
      · exact Or.inl h
      · exact Or.inr ⟨h1, h2⟩

/-- Witness for C4: the sequential binary32 mean on the two-word pool
{가나, 다라}. -/
theorem brute_force_suggest_minimizes_witness :
    (IsF32Mean list_mean ∧
      ([[0xAC00, 0xB098], [0xB2E4, 0xB77C]] : List Word) ≠ [] ∧
      ([[0xAC00, 0xB098], [0xB2E4, 0xB77C]] : List Word).Nodup ∧
      ∀ w ∈ ([[0xAC00, 0xB098], [0xB2E4, 0xB77C]] : List Word), ValidWord w) ∧
    ∃ w, brute_force_suggest list_mean [[0xAC00, 0xB098], [0xB2E4, 0xB77C]] =
        some (w, mean_score list_mean [[0xAC00, 0xB098], [0xB2E4, 0xB77C]] w) ∧
      w ∈ ([[0xAC00, 0xB098], [0xB2E4, 0xB77C]] : List Word) ∧
      ∀ w' ∈ ([[0xAC00, 0xB098], [0xB2E4, 0xB77C]] : List Word),
        mean_score list_mean [[0xAC00, 0xB098], [0xB2E4, 0xB77C]] w <
            mean_score list_mean [[0xAC00, 0xB098], [0xB2E4, 0xB77C]] w' ∨
          (mean_score list_mean [[0xAC00, 0xB098], [0xB2E4, 0xB77C]] w =
              mean_score list_mean [[0xAC00, 0xB098], [0xB2E4, 0xB77C]] w' ∧
            wordLeB w w' = true) :=
  ⟨⟨list_mean_isF32Mean, by decide, by decide, by decide⟩,
   brute_force_suggest_minimizes list_mean list_mean_isF32Mean
     [[0xAC00, 0xB098], [0xB2E4, 0xB77C]]
     (by decide) (by decide) (by decide)⟩

/-! ### The stateful solvers: `BruteForceSolver`, `MaximumEntropySolver`,
`CombinedSolver` -/

/-- The full state of a `BruteForceSolver`: the base `Solver` fields plus
the two score dictionaries mutated by `suggest`. -/
structure BruteForceSolver where
  vocab : List (Word × Label)
  candidates : List Word
  num_candidates : Nat
  word2scores : List (Word × List Nat)
  word2mean_score : List (Word × ℚ)
deriving DecidableEq

/-- `BruteForceSolver.suggest`: `_clear`, `_update_scores`,
`_reduce_scores_by_word`, `_select`; the returned state carries the score
dictionaries as mutated by the call. -/
def bf_suggest (s : BruteForceSolver) :
    BruteForceSolver × Option (Word × ℚ) :=
  let scores := update_scores s.candidates
  let means := reduce_scores_by_word list_mean scores
  ({ s with word2scores := scores, word2mean_score := means },
   bf_select means)

/-- `BruteForceSolver.reset`: base reset plus `_clear`. -/
def bf_reset (s : BruteForceSolver) : BruteForceSolver :=
  { s with
    candidates := s.vocab.map (·.1)
    num_candidates := (s.vocab.map (·.1)).length
    word2scores := []
    word2mean_score := [] }

/-- The state of a `MaximumEntropySolver` (just the base `Solver`
fields). -/
structure MaxEntropySolver where
  vocab : List (Word × Label)
  candidates : List Word
  num_candidates : Nat
deriving DecidableEq

/-- `MaximumEntropySolver.suggest`: a pure query of the candidate pool. -/
def me_suggest (s : MaxEntropySolver) :
    MaxEntropySolver × Option (Word × Nat) :=
  (s, max_entropy_select s.candidates)

/-- `MaximumEntropySolver.reset` (the base `Solver.reset`). -/
def me_reset (s : MaxEntropySolver) : MaxEntropySolver :=
  { s with
    candidates := s.vocab.map (·.1)
    num_candidates := (s.vocab.map (·.1)).length }

/-- The state of a `CombinedSolver`: base fields, the two internal
sub-solvers, and the strategy threshold. -/
structure CombinedSolver where
  vocab : List (Word × Label)
  candidates : List Word
  num_candidates : Nat
  bruteforce_solver : BruteForceSolver
  max_entropy_solver : MaxEntropySolver
  threshold : Nat
deriving DecidableEq

/-- `CombinedSolver._use_bruteforce`. -/
def combined_use_bruteforce (c : CombinedSolver) : Bool :=
  decide (c.num_candidates ≤ c.threshold)

/-- `CombinedSolver.suggest`: delegate to the brute-force engine at or
below the threshold, to the maximum-entropy engine above it. -/
def combined_suggest (c : CombinedSolver) :
    CombinedSolver × Option (Word × ℚ) :=
  if combined_use_bruteforce c then
    let r := bf_suggest c.bruteforce_solver
    ({ c with bruteforce_solver := r.1 }, r.2)
  else
    let r := me_suggest c.max_entropy_solver
    ({ c with max_entropy_solver := r.1 },
     r.2.map (fun p => (p.1, (p.2 : ℚ))))

/-- `CombinedSolver._update_candidates_recursive`: push the combined
solver's candidate pool and count into both sub-solvers. -/
def combined_update_candidates_recursive (c : CombinedSolver) :
    CombinedSolver :=
  { c with
    bruteforce_solver :=
      { c.bruteforce_solver with
        candidates := c.candidates
        num_candidates := c.num_candidates }
    max_entropy_solver :=
      { c.max_entropy_solver with
        candidates := c.candidates
        num_candidates := c.num_candidates } }

/-- `CombinedSolver.feedback`: the base feedback (validation + filtering)
followed by `_update_candidates_recursive`. -/
def combined_feedback (c : CombinedSolver) (pred : Word)
    (first_hint_name second_hint_name : HintName) :
    Except String CombinedSolver :=
  match feedback ⟨c.vocab, c.candidates, c.num_candidates⟩ pred
      first_hint_name second_hint_name with
  | .error e => .error e
  | .ok s' =>
    .ok (combined_update_candidates_recursive
      { c with candidates := s'.candidates, num_candidates := s'.num_candidates })

/-- `CombinedSolver.feedback_pumpkin_hint`: the base pumpkin filtering
followed by `_update_candidates_recursive`. -/
def combined_feedback_pumpkin (c : CombinedSolver) (jamo : Jamo) :
    CombinedSolver :=
  let s' := feedback_pumpkin_hint ⟨c.vocab, c.candidates, c.num_candidates⟩ jamo
  combined_update_candidates_recursive
    { c with candidates := s'.candidates, num_candidates := s'.num_candidates }

/-- `CombinedSolver.reset`: base reset, then reset of both sub-solvers
(each from its own stored vocabulary). -/
def combined_reset (c : CombinedSolver) : CombinedSolver :=
  { c with
    candidates := c.vocab.map (·.1)
    num_candidates := (c.vocab.map (·.1)).length
    bruteforce_solver := bf_reset c.bruteforce_solver
    max_entropy_solver := me_reset c.max_entropy_solver }

/-- The C10 alignment invariant: both sub-solvers share the combined
solver's candidate pool and count. -/
def subsolvers_aligned (c : CombinedSolver) : Prop :=
  c.bruteforce_solver.candidates = c.candidates ∧
  c.max_entropy_solver.candidates = c.candidates ∧
  c.bruteforce_solver.num_candidates = c.num_candidates ∧
  c.max_entropy_solver.num_candidates = c.num_candidates

/-! ### C8: suggestion on an empty candidate pool fails -/

/-- C8: For every solver whose candidate pool is empty, `suggest` surfaces
the empty-sequence error (the `ValueError` of `min`/`max`, embedded as
`none`) instead of returning any word. -/
theorem suggest_on_empty_pool_errors (b : BruteForceSolver)
    (m : MaxEntropySolver) (hb : b.candidates = [])
    (hm : m.candidates = []) :
    (bf_suggest b).2 = none ∧ (me_suggest m).2 = none := by
  constructor
  · show bf_select (reduce_scores_by_word list_mean (update_scores b.candidates)) = none
    rw [hb]
    have h0 : update_scores [] = [] := rfl
    rw [h0, reduce_scores_by_word, List.map_nil, List.mergeSort_nil]
    rfl
  · show max_entropy_select m.candidates = none
    rw [hm]
    rfl

/-- Witness for C8 on solvers with exhausted candidate pools. -/
theorem suggest_on_empty_pool_errors_witness :
    ((⟨[([0xAC00, 0xB098], Label.possible)], [], 0, [], []⟩ :
        BruteForceSolver).candidates = [] ∧
      (⟨[([0xAC00, 0xB098], Label.possible)], [], 0⟩ :
        MaxEntropySolver).candidates = []) ∧
    (bf_suggest ⟨[([0xAC00, 0xB098], Label.possible)], [], 0, [], []⟩).2 =
        none ∧
    (me_suggest ⟨[([0xAC00, 0xB098], Label.possible)], [], 0⟩).2 = none :=
  ⟨⟨rfl, rfl⟩,
   suggest_on_empty_pool_errors
     ⟨[([0xAC00, 0xB098], Label.possible)], [], 0, [], []⟩
     ⟨[([0xAC00, 0xB098], Label.possible)], [], 0⟩ rfl rfl⟩

/-! ### C9: suggestion is a read-only query of the session state -/

/-- C9: For every solver state, `suggest` leaves the candidate pool, the
candidate count and the vocabulary unchanged, for the brute-force, the
maximum-entropy and the combined solver (only the brute-force score
dictionaries are written). -/
theorem suggest_preserves_session_state (b : BruteForceSolver)
    (m : MaxEntropySolver) (c : CombinedSolver) :
    ((bf_suggest b).1.candidates = b.candidates ∧
      (bf_suggest b).1.num_candidates = b.num_candidates ∧
      (bf_suggest b).1.vocab = b.vocab) ∧
    (me_suggest m).1 = m ∧
    ((combined_suggest c).1.candidates = c.candidates ∧
      (combined_suggest c).1.num_candidates = c.num_candidates ∧
      (combined_suggest c).1.vocab = c.vocab) := by
  refine ⟨⟨rfl, rfl, rfl⟩, rfl, ?_⟩
  rw [combined_suggest]
  split_ifs <;> exact ⟨rfl, rfl, rfl⟩

/-! ### C10: the combined solver keeps its sub-solvers in sync -/

/-- C10: After every successful `CombinedSolver.feedback`, every
`feedback_pumpkin_hint` and every `reset` (on a state whose sub-solvers
hold the same vocabulary, as construction guarantees), both internal
solvers' candidate pools and counts equal the combined solver's own, so a
subsequent delegated `suggest` scores the current pool. -/
theorem combined_ops_align_subsolvers (c : CombinedSolver) (pred : Word)
    (n1 n2 : HintName) (jamo : Jamo)
    (hbv : c.bruteforce_solver.vocab = c.vocab)
    (hmv : c.max_entropy_solver.vocab = c.vocab) :
    (∀ c', combined_feedback c pred n1 n2 = .ok c' → subsolvers_aligned c') ∧
    subsolvers_aligned (combined_feedback_pumpkin c jamo) ∧
    subsolvers_aligned (combined_reset c) := by
  refine ⟨?_, ⟨rfl, rfl, rfl, rfl⟩, ?_⟩
  · intro c' hc'
    cases hfb : feedback ⟨c.vocab, c.candidates, c.num_candidates⟩ pred n1 n2 with
    | error e =>
      rw [combined_feedback, hfb] at hc'
      cases hc'
    | ok s' =>
      rw [combined_feedback, hfb] at hc'
      cases hc'
      exact ⟨rfl, rfl, rfl, rfl⟩
  · refine ⟨?_, ?_, ?_, ?_⟩ <;>
      simp [combined_reset, bf_reset, me_reset, subsolvers_aligned, hbv, hmv]

/-- Witness for C10 on a one-word combined solver with matching
vocabularies. -/
theorem combined_ops_align_subsolvers_witness :
    ((⟨[([0xAC00, 0xB098], Label.possible)], [[0xAC00, 0xB098]], 1,
        ⟨[([0xAC00, 0xB098], Label.possible)], [[0xAC00, 0xB098]], 1, [], []⟩,
        ⟨[([0xAC00, 0xB098], Label.possible)], [[0xAC00, 0xB098]], 1⟩,
        500⟩ : CombinedSolver).bruteforce_solver.vocab =
          [([0xAC00, 0xB098], Label.possible)] ∧
      (⟨[([0xAC00, 0xB098], Label.possible)], [[0xAC00, 0xB098]], 1,
        ⟨[([0xAC00, 0xB098], Label.possible)], [[0xAC00, 0xB098]], 1, [], []⟩,
        ⟨[([0xAC00, 0xB098], Label.possible)], [[0xAC00, 0xB098]], 1⟩,
        500⟩ : CombinedSolver).max_entropy_solver.vocab =
          [([0xAC00, 0xB098], Label.possible)]) ∧
    ((∀ c', combined_feedback
        ⟨[([0xAC00, 0xB098], Label.possible)], [[0xAC00, 0xB098]], 1,
          ⟨[([0xAC00, 0xB098], Label.possible)], [[0xAC00, 0xB098]], 1, [], []⟩,
          ⟨[([0xAC00, 0xB098], Label.possible)], [[0xAC00, 0xB098]], 1⟩,
          500⟩ [0xAC00, 0xB098] HintName.sagwa HintName.sagwa = .ok c' →
        subsolvers_aligned c') ∧
      subsolvers_aligned (combined_feedback_pumpkin
        ⟨[([0xAC00, 0xB098], Label.possible)], [[0xAC00, 0xB098]], 1,
          ⟨[([0xAC00, 0xB098], Label.possible)], [[0xAC00, 0xB098]], 1, [], []⟩,
          ⟨[([0xAC00, 0xB098], Label.possible)], [[0xAC00, 0xB098]], 1⟩,
          500⟩ 'ㄱ') ∧
      subsolvers_aligned (combined_reset
        ⟨[([0xAC00, 0xB098], Label.possible)], [[0xAC00, 0xB098]], 1,
          ⟨[([0xAC00, 0xB098], Label.possible)], [[0xAC00, 0xB098]], 1, [], []⟩,
          ⟨[([0xAC00, 0xB098], Label.possible)], [[0xAC00, 0xB098]], 1⟩,
          500⟩)) :=
  ⟨⟨rfl, rfl⟩,
   combined_ops_align_subsolvers
     ⟨[([0xAC00, 0xB098], Label.possible)], [[0xAC00, 0xB098]], 1,
       ⟨[([0xAC00, 0xB098], Label.possible)], [[0xAC00, 0xB098]], 1, [], []⟩,
       ⟨[([0xAC00, 0xB098], Label.possible)], [[0xAC00, 0xB098]], 1⟩,
       500⟩ [0xAC00, 0xB098] HintName.sagwa HintName.sagwa 'ㄱ' rfl rfl⟩

end Pairrot
